import Mathlib

/-!
Shallow embedding of the logmerge repository (src/main.go) together with
proofs about its timestamp-detection and k-way streaming-merge engine.

Modelling conventions:
* Go strings are modelled as `List Char`; the byte offsets returned by
  `regexp.FindStringIndex` become character offsets (all patterns only
  match ASCII, so the two agree on matched spans).
* `time.Time` is modelled by its civil fields plus a fixed zone offset
  (`GoTime`); `Before`/`After` compare the absolute instant
  (seconds since 0001-01-01 UTC in the proleptic Gregorian calendar,
  which is how Go's monotonic-free wall clock comparison behaves),
  breaking ties on nanoseconds.
* `time.Now().Year()` (the package global `currentYear` in main.go) is a
  parameter `cy` of every definition that uses it.
* Errors: `parseLogLine`/`readNextTimestamp` only ever produce
  `NoTimestampError` or `EndOfFileError`; `bufio.Scanner` read faults are
  indistinguishable from exhaustion because `scanner.Err()` is never
  inspected, so a source is just a (finite) list of lines.
-/

/-- The two error sentinels of main.go (`NoTimestampError`, `EndOfFileError`). -/
inductive GoErr where
  | noTimestamp
  | endOfFile
deriving DecidableEq, Repr

/-- Model of Go `time.Time`: civil fields plus the fixed zone offset (in
seconds east of UTC) that `time.Parse` attaches for `-0700` layouts. -/
structure GoTime where
  year : Int
  month : Nat
  day : Nat
  hour : Nat
  minute : Nat
  second : Nat
  nsec : Nat
  offset : Int
deriving DecidableEq, Repr

/-- The zero `time.Time{}`: January 1, year 1, 00:00:00 UTC. -/
def timeZero : GoTime := ⟨1, 1, 1, 0, 0, 0, 0, 0⟩

/-- Proleptic Gregorian leap-year rule, as in Go's `isLeap`. -/
def isLeapYear (y : Int) : Bool :=
  y % 4 = 0 && (y % 100 ≠ 0 || y % 400 = 0)

/-- Days in a month, as in Go's `daysIn` (month is 1-12 here). -/
def daysInMonth (y : Int) (m : Nat) : Nat :=
  if m = 2 then (if isLeapYear y then 29 else 28)
  else if m = 4 ∨ m = 6 ∨ m = 9 ∨ m = 11 then 30
  else 31

/-- Cumulative days before month `m` in a non-leap year (Go's `daysBefore`). -/
def daysBeforeMonth (m : Nat) : Nat :=
  match m with
  | 1 => 0 | 2 => 31 | 3 => 59 | 4 => 90 | 5 => 120 | 6 => 151
  | 7 => 181 | 8 => 212 | 9 => 243 | 10 => 273 | 11 => 304 | _ => 334

/-- Number of leap years in the interval of years `[1, n]` (proleptic,
extended to negative `n` by floor division, matching Go's cycle count). -/
def leapsThrough (n : Int) : Int :=
  Int.fdiv n 4 - Int.fdiv n 100 + Int.fdiv n 400

/-- Days elapsed from 0001-01-01 to the civil date of `t` (Go's absolute
day computation, re-based at year 1). -/
def daysFromYear1 (t : GoTime) : Int :=
  365 * (t.year - 1) + leapsThrough (t.year - 1)
    + (daysBeforeMonth t.month : Int)
    + (if isLeapYear t.year && decide (2 < t.month) then 1 else 0)
    + ((t.day : Int) - 1)

/-- Absolute second of the instant `t` (zone offset subtracted), the
quantity Go's `Before`/`After`/`IsZero` compare. -/
def absSec (t : GoTime) : Int :=
  daysFromYear1 t * 86400 + (t.hour : Int) * 3600 + (t.minute : Int) * 60
    + (t.second : Int) - t.offset

/-- Go `t.Before(u)`. -/
def timeBefore (t u : GoTime) : Bool :=
  decide (absSec t < absSec u) ||
    (decide (absSec t = absSec u) && decide (t.nsec < u.nsec))

/-- Go `t.After(u)`. -/
def timeAfter (t u : GoTime) : Bool := timeBefore u t

/-- Go `t.IsZero()`: the instant is January 1, year 1, 00:00:00 UTC. -/
def timeIsZero (t : GoTime) : Bool :=
  decide (absSec t = 0) && decide (t.nsec = 0)

/-- Civil-date normalization used by Go's `Date`/`AddDate`: a day count
exceeding the month length rolls over into the following months.  Each
roll decreases the day count by at least one (a month has at least 28
days), so `d` itself bounds the number of iterations. -/
def normDateAux : Nat → Int → Nat → Nat → Int × Nat × Nat
  | 0, y, m, d => (y, m, d)
  | fuel + 1, y, m, d =>
    if daysInMonth y m < d then
      if 12 ≤ m then normDateAux fuel (y + 1) 1 (d - daysInMonth y m)
      else normDateAux fuel y (m + 1) (d - daysInMonth y m)
    else (y, m, d)

def normDate (y : Int) (m : Nat) (d : Nat) : Int × Nat × Nat :=
  normDateAux d y m d

/-- Go `t.AddDate(years, 0, 0)`: add years to the civil date, normalizing
(the clock fields and zone are preserved; they are already in range for
every parsed time, so only the date part can need normalization). -/
def addDateYears (t : GoTime) (years : Int) : GoTime :=
  let r := normDate (t.year + years) t.month t.day
  { t with year := r.1, month := r.2.1, day := r.2.2 }

/-!
## Regular-expression engine

The twelve patterns of `timestampPatterns` only use literals, `\d{n}`,
`\d+`, `[A-Za-z]{3}`, `" +"` (one or more spaces) and `[+-]`.  For these
patterns greedy maximal munch coincides with Go's leftmost-first
semantics: every `\d+` is followed by a space literal and every `" +"`
by a digit, so a shorter munch can never make the rest of the pattern
match.  `regexFind` scans candidate start offsets left to right exactly
as `FindStringIndex` does.
-/

/-- Token of the restricted regex language used by `timestampPatterns`. -/
inductive RTok where
  | lit : Char → RTok
  | digitN : Nat → RTok
  | digitPlus : RTok
  | alphaN : Nat → RTok
  | spacePlus : RTok
  | sign : RTok
deriving DecidableEq, Repr

def isDigitC (c : Char) : Bool := '0' ≤ c && c ≤ '9'

def isAlphaC (c : Char) : Bool :=
  ('A' ≤ c && c ≤ 'Z') || ('a' ≤ c && c ≤ 'z')

/-- Match a token list at the start of `s`; returns the number of
characters consumed on success. -/
def matchToks : List RTok → List Char → Option Nat
  | [], _ => some 0
  | RTok.lit c :: ts, s =>
    match s with
    | [] => none
    | c' :: s' => if c' = c then (matchToks ts s').map (· + 1) else none
  | RTok.digitN n :: ts, s =>
    if (s.take n).length = n && (s.take n).all isDigitC then
      (matchToks ts (s.drop n)).map (· + n)
    else none
  | RTok.digitPlus :: ts, s =>
    let k := (s.takeWhile isDigitC).length
    if k = 0 then none else (matchToks ts (s.drop k)).map (· + k)
  | RTok.alphaN n :: ts, s =>
    if (s.take n).length = n && (s.take n).all isAlphaC then
      (matchToks ts (s.drop n)).map (· + n)
    else none
  | RTok.spacePlus :: ts, s =>
    let k := (s.takeWhile (· = ' ')).length
    if k = 0 then none else (matchToks ts (s.drop k)).map (· + k)
  | RTok.sign :: ts, s =>
    match s with
    | [] => none
    | c' :: s' => if c' = '+' ∨ c' = '-' then (matchToks ts s').map (· + 1) else none

/-- Scan start offsets left to right from offset `pos`. -/
def regexFindFrom (toks : List RTok) : List Char → Nat → Option (Nat × Nat)
  | s, pos =>
    match matchToks toks s with
    | some k => some (pos, pos + k)
    | none =>
      match s with
      | [] => none
      | _ :: s' => regexFindFrom toks s' (pos + 1)

/-- Go `regexp.FindStringIndex`: leftmost match as `(start, end)` offsets,
`none` when the pattern does not match anywhere. -/
def regexFind (toks : List RTok) (line : List Char) : Option (Nat × Nat) :=
  regexFindFrom toks line 0

/-!
## Layout-driven time parsing (`time.Parse`)

Only the behaviour of `time.Parse` on the eight layout strings of the
pattern table is modelled.  Chunks mirror Go's reference-layout chunks;
range validation is the one Go performs (hour < 24, minute/second < 60,
month 1-12, `1 ≤ day ≤ daysIn(month, year)`; fractional seconds accept
both `.` and `,`; missing fields default to January 1 of year 0; the
whole value must be consumed).
-/

/-- A chunk of a Go time layout string. -/
inductive LTok where
  | lit : Char → LTok
  | year4
  | monthName
  | month2
  | day2
  | dayUnder
  | hour2
  | minute2
  | second2
  | frac : Nat → LTok
  | numTZ
deriving DecidableEq, Repr

/-- Fields accumulated while parsing a value against a layout.
`month`/`day` use `none` for "not present in the layout" (Go's `-1`). -/
structure PFields where
  year : Int := 0
  month : Option Nat := none
  day : Option Nat := none
  hour : Nat := 0
  minute : Nat := 0
  second : Nat := 0
  nsec : Nat := 0
  offset : Int := 0
deriving Repr

def digitVal (c : Char) : Nat := c.toNat - '0'.toNat

def digitsVal (s : List Char) : Nat :=
  s.foldl (fun a c => a * 10 + digitVal c) 0

/-- Read exactly `n` digits. -/
def readDigits (n : Nat) (s : List Char) : Option (Nat × List Char) :=
  if (s.take n).length = n && (s.take n).all isDigitC then
    some (digitsVal (s.take n), s.drop n)
  else none

def lowerC (c : Char) : Char := c.toLower

/-- Go's case-insensitive three-letter month-name lookup. -/
def monthFromName (s : List Char) : Option Nat :=
  let l := s.map lowerC
  let names := [['j','a','n'], ['f','e','b'], ['m','a','r'], ['a','p','r'],
    ['m','a','y'], ['j','u','n'], ['j','u','l'], ['a','u','g'],
    ['s','e','p'], ['o','c','t'], ['n','o','v'], ['d','e','c']]
  match names.indexOf? l with
  | some i => some (i + 1)
  | none => none

/-- Parse one layout chunk, consuming characters of the value. -/
def parseChunk (t : LTok) (f : PFields) (s : List Char) :
    Option (PFields × List Char) :=
  match t with
  | LTok.lit c =>
    match s with
    | [] => none
    | c' :: s' => if c' = c then some (f, s') else none
  | LTok.year4 =>
    match readDigits 4 s with
    | some (v, s') => some ({ f with year := (v : Int) }, s')
    | none => none
  | LTok.monthName =>
    match s with
    | a :: b :: c :: s' =>
      match monthFromName [a, b, c] with
      | some m => some ({ f with month := some m }, s')
      | none => none
    | _ => none
  | LTok.month2 =>
    match readDigits 2 s with
    | some (v, s') =>
      if 1 ≤ v ∧ v ≤ 12 then some ({ f with month := some v }, s') else none
    | none => none
  | LTok.day2 =>
    match readDigits 2 s with
    | some (v, s') => some ({ f with day := some v }, s')
    | none => none
  | LTok.dayUnder =>
    -- `_2`: one optional leading space, then one or two digits
    let s := match s with
      | ' ' :: s' => s'
      | _ => s
    match s with
    | a :: b :: s' =>
      if isDigitC a then
        if isDigitC b then some ({ f with day := some (digitsVal [a, b]) }, s')
        else some ({ f with day := some (digitVal a) }, b :: s')
      else none
    | [a] =>
      if isDigitC a then some ({ f with day := some (digitVal a) }, []) else none
    | [] => none
  | LTok.hour2 =>
    match readDigits 2 s with
    | some (v, s') => if v < 24 then some ({ f with hour := v }, s') else none
    | none => none
  | LTok.minute2 =>
    match readDigits 2 s with
    | some (v, s') => if v < 60 then some ({ f with minute := v }, s') else none
    | none => none
  | LTok.second2 =>
    match readDigits 2 s with
    | some (v, s') => if v < 60 then some ({ f with second := v }, s') else none
    | none => none
  | LTok.frac n =>
    -- Go accepts both a dot and a comma before the fixed digit count
    match s with
    | c :: s' =>
      if c = '.' ∨ c = ',' then
        match readDigits n s' with
        | some (v, s'') => some ({ f with nsec := v * 10 ^ (9 - n) }, s'')
        | none => none
      else none
    | [] => none
  | LTok.numTZ =>
    match s with
    | c :: s' =>
      if c = '+' ∨ c = '-' then
        match readDigits 2 s' with
        | some (hh, s'') =>
          match readDigits 2 s'' with
          | some (mm, s''') =>
            let off : Int := (hh : Int) * 3600 + (mm : Int) * 60
            some ({ f with offset := if c = '-' then -off else off }, s''')
          | none => none
        | none => none
      else none
    | [] => none

def parseChunks : List LTok → PFields → List Char → Option (PFields × List Char)
  | [], f, s => some (f, s)
  | t :: ts, f, s =>
    match parseChunk t f s with
    | some (f', s') => parseChunks ts f' s'
    | none => none

/-- Model of `time.Parse layout value` for the layouts in the pattern
table: chunk-wise parse, require the value fully consumed, apply the
defaults and the final day-of-month validation. -/
def parseTime (layout : List LTok) (value : List Char) : Option GoTime :=
  match parseChunks layout {} value with
  | some (f, []) =>
    let m := f.month.getD 1
    let d := f.day.getD 1
    if 1 ≤ m ∧ m ≤ 12 then
      if 1 ≤ d ∧ d ≤ daysInMonth f.year m then
        some ⟨f.year, m, d, f.hour, f.minute, f.second, f.nsec, f.offset⟩
      else none
    else none
  | _ => none

/-!
## The pattern table (`timestampPatterns` of main.go)

Each entry pairs the token form of the Go regular expression with the
chunk form of the Go layout string, in the exact order of the table at
the top of main.go.
-/

def layoutSyslog : List LTok :=
  [LTok.monthName, LTok.lit ' ', LTok.dayUnder, LTok.lit ' ',
   LTok.hour2, LTok.lit ':', LTok.minute2, LTok.lit ':', LTok.second2]

def layoutDateTimeTZ : List LTok :=
  [LTok.year4, LTok.lit '-', LTok.month2, LTok.lit '-', LTok.day2, LTok.lit ' ',
   LTok.hour2, LTok.lit ':', LTok.minute2, LTok.lit ':', LTok.second2,
   LTok.lit ' ', LTok.numTZ]

def layoutDateTimeMs : List LTok :=
  [LTok.year4, LTok.lit '-', LTok.month2, LTok.lit '-', LTok.day2, LTok.lit ' ',
   LTok.hour2, LTok.lit ':', LTok.minute2, LTok.lit ':', LTok.second2,
   LTok.frac 3]

def layoutDateTime : List LTok :=
  [LTok.year4, LTok.lit '-', LTok.month2, LTok.lit '-', LTok.day2, LTok.lit ' ',
   LTok.hour2, LTok.lit ':', LTok.minute2, LTok.lit ':', LTok.second2]

def layoutDateTimeTMs : List LTok :=
  [LTok.year4, LTok.lit '-', LTok.month2, LTok.lit '-', LTok.day2, LTok.lit 'T',
   LTok.hour2, LTok.lit ':', LTok.minute2, LTok.lit ':', LTok.second2,
   LTok.frac 3]

def layoutDateTimeT : List LTok :=
  [LTok.year4, LTok.lit '-', LTok.month2, LTok.lit '-', LTok.day2, LTok.lit 'T',
   LTok.hour2, LTok.lit ':', LTok.minute2, LTok.lit ':', LTok.second2]

def layoutHttp : List LTok :=
  [LTok.day2, LTok.lit '/', LTok.monthName, LTok.lit '/', LTok.year4,
   LTok.lit ' ', LTok.hour2, LTok.lit ':', LTok.minute2, LTok.lit ':',
   LTok.second2]

def layoutHttpTZ : List LTok :=
  [LTok.day2, LTok.lit '/', LTok.monthName, LTok.lit '/', LTok.year4,
   LTok.lit ':', LTok.hour2, LTok.lit ':', LTok.minute2, LTok.lit ':',
   LTok.second2, LTok.lit ' ', LTok.numTZ]

def layoutTimeMicro : List LTok :=
  [LTok.hour2, LTok.lit ':', LTok.minute2, LTok.lit ':', LTok.second2,
   LTok.frac 6]

def d2 : RTok := RTok.digitN 2
def d3 : RTok := RTok.digitN 3
def d4 : RTok := RTok.digitN 4
def colon : RTok := RTok.lit ':'
def dash : RTok := RTok.lit '-'
def sp : RTok := RTok.lit ' '

def rxSyslog : List RTok :=
  [RTok.alphaN 3, RTok.spacePlus, RTok.digitPlus, sp, d2, colon, d2, colon, d2]

def rxDateTimeCore : List RTok := [d4, dash, d2, dash, d2]

def rxTime : List RTok := [d2, colon, d2, colon, d2]

def rxDateTimeTZ : List RTok :=
  rxDateTimeCore ++ [sp] ++ rxTime ++ [sp, RTok.sign, d4]

def rxDateTimeComma : List RTok :=
  rxDateTimeCore ++ [sp] ++ rxTime ++ [RTok.lit ',', d3]

def rxDateTimeDot : List RTok :=
  rxDateTimeCore ++ [sp] ++ rxTime ++ [RTok.lit '.', d3]

def rxDateTime : List RTok := rxDateTimeCore ++ [sp] ++ rxTime

def rxDateTimeTComma : List RTok :=
  rxDateTimeCore ++ [RTok.lit 'T'] ++ rxTime ++ [RTok.lit ',', d3]

def rxDateTimeTDot : List RTok :=
  rxDateTimeCore ++ [RTok.lit 'T'] ++ rxTime ++ [RTok.lit '.', d3]

def rxDateTimeT : List RTok := rxDateTimeCore ++ [RTok.lit 'T'] ++ rxTime

def rxHttp : List RTok :=
  [d2, RTok.lit '/', RTok.alphaN 3, RTok.lit '/', d4, sp] ++ rxTime

def rxHttpTZ : List RTok :=
  [d2, RTok.lit '/', RTok.alphaN 3, RTok.lit '/', d4, colon] ++ rxTime
    ++ [sp, RTok.sign, d4]

def rxTimeMicro : List RTok := rxTime ++ [RTok.lit '.', RTok.digitN 6]

def rxStrace : List RTok := [RTok.digitPlus, sp] ++ rxTimeMicro

/-- The ordered table `timestampPatterns` of main.go. -/
def timestampPatterns : List (List RTok × List LTok) :=
  [(rxSyslog, layoutSyslog),
   (rxDateTimeTZ, layoutDateTimeTZ),
   (rxDateTimeComma, layoutDateTimeMs),
   (rxDateTimeDot, layoutDateTimeMs),
   (rxDateTime, layoutDateTime),
   (rxDateTimeTComma, layoutDateTimeTMs),
   (rxDateTimeTDot, layoutDateTimeTMs),
   (rxDateTimeT, layoutDateTimeT),
   (rxHttp, layoutHttp),
   (rxHttpTZ, layoutHttpTZ),
   (rxTimeMicro, layoutTimeMicro),
   (rxStrace, layoutTimeMicro)]

/-- Placeholder returned by `getD` lookups at indices that are never out
of range (Go would panic there). -/
def dfltPattern : List RTok × List LTok := ([RTok.sign], [])

/-!
## findBestMatch, extractTimestamp, parseLogLine
-/

/-- Loop body state of `findBestMatch`: the candidate so far as
`(index, start, end)`; `none` plays the role of `resLoc == nil` /
`err == NoTimestampError`. -/
def findBestMatchAux (line : List Char) :
    Nat → List (List RTok × List LTok) → Option (Nat × Nat × Nat) →
    Option (Nat × Nat × Nat)
  | _, [], acc => acc
  | i, p :: ps, acc =>
    let acc' :=
      match regexFind p.1 line with
      | none => acc
      | some (a, b) =>
        match acc with
        | none => some (i, a, b)
        | some (_, c, d) =>
          -- the Go condition: loc[0] < resLoc[0] || (loc[1]-loc[0] > resLoc[1]-resLoc[0])
          if a < c ∨ b - a > d - c then some (i, a, b) else acc
    findBestMatchAux line (i + 1) ps acc'

/-- `findBestMatch` of main.go: scan all patterns, keeping the candidate
match per the condition on line 51; `none` means `NoTimestampError`. -/
def findBestMatch (line : List Char) : Option (Nat × Nat × Nat) :=
  findBestMatchAux line 0 timestampPatterns none

/-- `extractTimestamp` of main.go: parse the matched substring with the
layout; on failure return the zero time, the whole line and
`NoTimestampError`; on success add the current year to year-zero
instants and cut the matched substring out of the line. -/
def extractTimestamp (cy : Int) (line : List Char) (loc : Nat × Nat)
    (layout : List LTok) : GoTime × List Char × Option GoErr :=
  match parseTime layout ((line.drop loc.1).take (loc.2 - loc.1)) with
  | none => (timeZero, line, some GoErr.noTimestamp)
  | some t =>
    let t := if t.year = 0 then addDateYears t cy else t
    (t, line.take loc.1 ++ line.drop loc.2, none)

/-- Result of `parseLogLine`: the returned triple, plus the state of this
file's entry in the global `logFormatIndexes` map after the call, plus
whether `cacheHits` was incremented. -/
structure ParseRes where
  ts : GoTime
  rest : List Char
  err : Option GoErr
  hint : Option Nat
  cacheHit : Bool
deriving DecidableEq, Repr

/-- `parseLogLine` of main.go.  `hint` is `logFormatIndexes[fileIndex]`.
Note the faithful reproduction of line 102: the full-scan branch returns
a literal `nil` error even when `extractTimestamp` failed. -/
def parseLogLine (cy : Int) (hint : Option Nat) (line : List Char) : ParseRes :=
  let scan : ParseRes :=
    match findBestMatch line with
    | some (pi, a, b) =>
      let r := extractTimestamp cy line (a, b) (timestampPatterns.getD pi dfltPattern).2
      { ts := r.1, rest := r.2.1, err := none,
        hint := if r.2.2 = none then some pi else hint, cacheHit := false }
    | none =>
      { ts := timeZero, rest := line, err := some GoErr.noTimestamp,
        hint := hint, cacheHit := false }
  match hint with
  | some idx =>
    match regexFind (timestampPatterns.getD idx dfltPattern).1 line with
    | some (a, b) =>
      let r := extractTimestamp cy line (a, b) (timestampPatterns.getD idx dfltPattern).2
      { ts := r.1, rest := r.2.1, err := r.2.2, hint := hint,
        cacheHit := r.2.2 = none }
    | none => scan
  | none => scan

/-!
## The streaming merge (`mergeLogs` of main.go)

State per source: the remaining scanner content together with the Go
slices `timestamps[i]`, `restOfLines[i]`, `fileErrors[i]` and the entry
`logFormatIndexes[i]` of the global format-hint map.  Emitted records
are `(instant, source index, payload)`; the Go code sends
`lineStruct{earliestTime, filenames[earliestIndex], restOfLines[earliestIndex]}`,
whose filename is the fixed function `filenames` of the index, so the
index is the faithful provenance of a record.
-/

structure SrcState where
  lines : List (List Char)
  ts : GoTime
  rest : List Char
  err : Option GoErr
  hint : Option Nat
deriving Repr

/-- `readNextTimestamp` returns after one `scanner.Scan()`: `parseLogLine`
only produces `nil` or `NoTimestampError`, both of which return at once,
so each call consumes exactly one line (or reports end of file). -/
def seedSrc (cy : Int) (lines : List (List Char)) : SrcState :=
  match lines with
  | [] => ⟨[], timeZero, [], some GoErr.endOfFile, none⟩
  | l :: ls =>
    let p := parseLogLine cy none l
    ⟨ls, p.ts, p.rest, p.err, p.hint⟩

/-- Advancing the selected cursor (main.go lines 194-208): one
`readNextTimestamp`; on success replace the pending timestamp, on
`NoTimestampError` keep the old timestamp (but take the new payload), on
end of file record the error, retiring the source. -/
def advanceSrc (cy : Int) (s : SrcState) : SrcState :=
  match s.lines with
  | [] => { s with rest := [], err := some GoErr.endOfFile }
  | l :: ls =>
    let p := parseLogLine cy s.hint l
    if p.err = none then { s with lines := ls, ts := p.ts, rest := p.rest, hint := p.hint }
    else { s with lines := ls, rest := p.rest, hint := p.hint }

def dfltSrc : SrcState := ⟨[], timeZero, [], some GoErr.endOfFile, none⟩

/-- The scan of main.go lines 171-179: ascending over all sources,
skipping errored ones, replacing the candidate only on a strictly
earlier timestamp (so the first index among ties is kept). -/
def feAux : Nat → Option (Nat × GoTime) → List SrcState → Option (Nat × GoTime)
  | _, acc, [] => acc
  | i, acc, s :: ss =>
    let acc' :=
      if s.err = none then
        match acc with
        | none => some (i, s.ts)
        | some (_, t) => if timeBefore s.ts t then some (i, s.ts) else acc
      else acc
    feAux (i + 1) acc' ss

def findEarliestGo (srcs : List SrcState) : Option (Nat × GoTime) :=
  feAux 0 none srcs

/-- An emitted record: instant, index of the originating source, payload. -/
abbrev Rec := GoTime × Nat × List Char

/-- The merge loop of main.go lines 165-209, with explicit fuel.  Each
iteration consumes a line or retires a source, so
`totalLines + length + 1` fuel always reaches the natural `break`; the
fuel-exhaustion branch is unreachable for the fuel `mergeLogs` supplies
(`mergeLoopF_complete` below proves every eligible record is emitted). -/
def mergeLoopF (cy : Int) (sT eT : GoTime) : Nat → List SrcState → List Rec
  | 0, _ => []
  | fuel + 1, srcs =>
    match findEarliestGo srcs with
    | none => []
    | some (i, t) =>
      if !timeIsZero eT && timeAfter t eT then []
      else
        (if timeIsZero sT || !timeBefore t sT then
          [(t, i, (srcs.getD i dfltSrc).rest)] else [])
        ++ mergeLoopF cy sT eT fuel
            (srcs.set i (if (srcs.getD i dfltSrc).err = none then
               advanceSrc cy (srcs.getD i dfltSrc) else srcs.getD i dfltSrc))

def totalLines (srcs : List SrcState) : Nat :=
  (srcs.map (fun s => s.lines.length)).sum

def mergeFuel (srcs : List SrcState) : Nat := totalLines srcs + srcs.length + 1

/-- `mergeLogs` of main.go, from the raw per-source line lists (files
already opened): seed one pending record per source, then run the loop.
The list of emitted records models the sends on the channel `ch`, in
order, before `close(ch)`. -/
def mergeLogs (cy : Int) (sT eT : GoTime) (sources : List (List (List Char))) :
    List Rec :=
  let seeded := sources.map (seedSrc cy)
  mergeLoopF cy sT eT (mergeFuel seeded) seeded

/-!
## Derived per-source streams

`successInstants` lists the instants of the lines a source's reader
reports as timestamped (`err == nil`), in order; `futureRecs` lists the
pending records the source will contribute to the merge, starting from a
given carried timestamp and hint.
-/

def successInstants (cy : Int) (hint : Option Nat) :
    List (List Char) → List GoTime
  | [] => []
  | l :: ls =>
    let p := parseLogLine cy hint l
    if p.err = none then p.ts :: successInstants cy p.hint ls
    else successInstants cy p.hint ls

def futureRecs (cy : Int) (t0 : GoTime) (hint : Option Nat) :
    List (List Char) → List (GoTime × List Char)
  | [] => []
  | l :: ls =>
    let p := parseLogLine cy hint l
    if p.err = none then (p.ts, p.rest) :: futureRecs cy p.ts p.hint ls
    else (t0, p.rest) :: futureRecs cy t0 p.hint ls

/-- All pending records an alive source still holds or will produce. -/
def srcStream (cy : Int) (s : SrcState) : List (GoTime × List Char) :=
  (s.ts, s.rest) :: futureRecs cy s.ts s.hint s.lines

/-- The records of all alive sources, tagged with their indices. -/
def pendRecsAux (cy : Int) : Nat → List SrcState → List Rec
  | _, [] => []
  | i, s :: ss =>
    (if s.err = none then (srcStream cy s).map (fun q => (q.1, i, q.2)) else [])
      ++ pendRecsAux cy (i + 1) ss

def pendRecs (cy : Int) (srcs : List SrcState) : List Rec :=
  pendRecsAux cy 0 srcs

/-- Non-decreasing comparison on instants: `¬ u.Before(t)`. -/
def tle (t u : GoTime) : Prop := timeBefore u t = false

instance (t u : GoTime) : Decidable (tle t u) :=
  inferInstanceAs (Decidable (timeBefore u t = false))

/-- A kernel-computable decision procedure for chains of `tle`. -/
def decChainTle : (l : List GoTime) → Decidable (List.Chain' tle l)
  | [] => isTrue List.chain'_nil
  | [a] => isTrue (List.chain'_singleton a)
  | a :: b :: l =>
    match inferInstanceAs (Decidable (tle a b)), decChainTle (b :: l) with
    | isTrue h1, isTrue h2 => isTrue (List.chain'_cons.mpr ⟨h1, h2⟩)
    | isFalse h1, _ => isFalse fun hc => h1 (List.chain'_cons.mp hc).1
    | _, isFalse h2 => isFalse fun hc => h2 (List.chain'_cons.mp hc).2

instance (l : List GoTime) : Decidable (List.Chain' tle l) := decChainTle l

/-- The invariant carried through the merge loop: every alive source's
stream of pending instants is non-decreasing. -/
def ChainInv (cy : Int) (srcs : List SrcState) : Prop :=
  ∀ s ∈ srcs, s.err = none →
    List.Chain' tle ((srcStream cy s).map Prod.fst)

/-- Number of sources whose error slot is still `nil`. -/
def aliveCount (srcs : List SrcState) : Nat :=
  (srcs.map (fun s => if s.err = none then 1 else 0)).sum

/-!
## Order facts about `timeBefore`
-/

theorem timeBefore_iff {t u : GoTime} :
    timeBefore t u = true ↔
      absSec t < absSec u ∨ (absSec t = absSec u ∧ t.nsec < u.nsec) := by
  simp [timeBefore]

theorem timeBefore_false_iff {t u : GoTime} :
    timeBefore t u = false ↔
      ¬(absSec t < absSec u ∨ (absSec t = absSec u ∧ t.nsec < u.nsec)) := by
  rw [← timeBefore_iff]; cases timeBefore t u <;> simp

theorem tle_refl (t : GoTime) : tle t t := by
  simp [tle, timeBefore_false_iff]

theorem tle_trans {a b c : GoTime} (h1 : tle a b) (h2 : tle b c) : tle a c := by
  simp [tle, timeBefore_false_iff] at *
  omega

theorem tle_of_before {a b : GoTime} (h : timeBefore a b = true) : tle a b := by
  rw [timeBefore_iff] at h
  simp [tle, timeBefore_false_iff]
  omega

theorem after_mono {e t x : GoTime} (h1 : timeAfter t e = true) (h2 : tle t x) :
    timeAfter x e = true := by
  simp [timeAfter, timeBefore_iff] at h1 ⊢
  simp [tle, timeBefore_false_iff] at h2
  omega

/-!
## Structural facts about the classifier
-/

theorem extractTimestamp_fail {cy : Int} {line : List Char} {loc : Nat × Nat}
    {lay : List LTok} (h : (extractTimestamp cy line loc lay).2.2 ≠ none) :
    extractTimestamp cy line loc lay = (timeZero, line, some GoErr.noTimestamp) := by
  unfold extractTimestamp at *
  cases hp : parseTime lay ((line.drop loc.1).take (loc.2 - loc.1)) <;>
    simp [hp] at *

/-- A line reported as having no timestamp comes back unchanged, with the
zero time and the hint untouched. -/
theorem parseLogLine_noTs {cy : Int} {hint : Option Nat} {line : List Char}
    (h : (parseLogLine cy hint line).err = some GoErr.noTimestamp) :
    parseLogLine cy hint line =
      ⟨timeZero, line, some GoErr.noTimestamp, hint, false⟩ := by
  unfold parseLogLine at *
  cases hh : hint with
  | none =>
    simp only [hh] at h ⊢
    cases hb : findBestMatch line with
    | none => simp [hb]
    | some v => simp [hb] at h
  | some idx =>
    simp only [hh] at h ⊢
    cases hr : regexFind (timestampPatterns.getD idx dfltPattern).1 line with
    | none =>
      simp only [hr] at h ⊢
      cases hb : findBestMatch line with
      | none => simp [hb]
      | some v => simp [hb] at h
    | some v =>
      obtain ⟨a, b⟩ := v
      simp only [hr] at h ⊢
      have hf : (extractTimestamp cy line (a, b)
          (timestampPatterns.getD idx dfltPattern).2).2.2 ≠ none := by
        simp at h; simp [h]
      have := extractTimestamp_fail hf
      simp only [List.getD, List.get?_eq_getElem?] at this ⊢
      simp [this]

/-!
## Facts about the minimum scan
-/

theorem feAux_mem : ∀ (ss : List SrcState) (i : Nat) (acc : Option (Nat × GoTime))
    (j : Nat) (t : GoTime), feAux i acc ss = some (j, t) →
    acc = some (j, t) ∨
      ∃ k, k < ss.length ∧ j = i + k ∧ (ss.getD k dfltSrc).err = none ∧
        (ss.getD k dfltSrc).ts = t := by
  intro ss
  induction ss with
  | nil => intro i acc j t h; exact Or.inl h
  | cons s ss ih =>
    intro i acc j t h
    simp only [feAux] at h
    rcases ih _ _ _ _ h with h' | ⟨k, hk, hj, he, ht⟩
    · by_cases hs : s.err = none
      · simp only [hs, if_pos rfl] at h'
        cases hacc : acc with
        | none =>
          subst hacc; simp at h'
          exact Or.inr ⟨0, by simp, by omega, by simp [List.getD, h', hs], by simp [List.getD, ← h']⟩
        | some v =>
          obtain ⟨j0, t0⟩ := v
          subst hacc
          by_cases hb : timeBefore s.ts t0 = true
          · simp [hb] at h'
            exact Or.inr ⟨0, by simp, by omega, by simp [List.getD, hs], by simp [List.getD, ← h']⟩
          · simp [Bool.not_eq_true] at hb
            simp [hb] at h'
            exact Or.inl (by simp [h'])
      · simp [hs] at h'
        exact Or.inl h'
    · exact Or.inr ⟨k + 1, by simpa using hk, by omega, by simpa [List.getD] using he,
        by simpa [List.getD] using ht⟩

theorem feAux_min : ∀ (ss : List SrcState) (i : Nat) (acc : Option (Nat × GoTime))
    (j : Nat) (t : GoTime), feAux i acc ss = some (j, t) →
    (∀ j0 t0, acc = some (j0, t0) → tle t t0) ∧
      (∀ k, k < ss.length → (ss.getD k dfltSrc).err = none →
        tle t (ss.getD k dfltSrc).ts) := by
  intro ss
  induction ss with
  | nil =>
    intro i acc j t h
    refine ⟨fun j0 t0 hacc => ?_, fun k hk => by simp at hk⟩
    simp only [feAux] at h; rw [hacc] at h; simp at h
    simp [← h.2, tle_refl]
  | cons s ss ih =>
    intro i acc j t h
    simp only [feAux] at h
    by_cases hs : s.err = none
    · cases hacc : acc with
      | none =>
        subst hacc
        simp only [hs, if_pos rfl] at h
        obtain ⟨ihA, ihB⟩ := ih _ _ _ _ h
        refine ⟨fun j0 t0 h0 => by simp at h0, fun k hk he => ?_⟩
        match k with
        | 0 => exact ihA i s.ts rfl
        | k + 1 =>
          exact ihB k (by simpa using hk) (by simpa [List.getD] using he)
      | some v =>
        obtain ⟨j0, t0⟩ := v
        subst hacc
        by_cases hb : timeBefore s.ts t0 = true
        · simp only [hs, if_pos rfl, hb, if_pos rfl] at h
          obtain ⟨ihA, ihB⟩ := ih _ _ _ _ h
          have hts : tle t s.ts := ihA i s.ts rfl
          refine ⟨fun j1 t1 h1 => ?_, fun k hk he => ?_⟩
          · obtain ⟨rfl, rfl⟩ : j1 = j0 ∧ t1 = t0 := by
              constructor <;> simp_all
            exact tle_trans hts (tle_of_before hb)
          · match k with
            | 0 => exact hts
            | k + 1 => exact ihB k (by simpa using hk) (by simpa [List.getD] using he)
        · have hb' : timeBefore s.ts t0 = false := by simpa using hb
          simp only [hs, if_pos rfl, if_neg hb] at h
          obtain ⟨ihA, ihB⟩ := ih _ _ _ _ h
          have ht0 : tle t t0 := ihA j0 t0 rfl
          refine ⟨fun j1 t1 h1 => ?_, fun k hk he => ?_⟩
          · obtain ⟨rfl, rfl⟩ : j1 = j0 ∧ t1 = t0 := by
              constructor <;> simp_all
            exact ht0
          · match k with
            | 0 =>
              simp only [List.getD]
              have : tle t0 s.ts := hb'
              exact tle_trans ht0 this
            | k + 1 => exact ihB k (by simpa using hk) (by simpa [List.getD] using he)
    · simp only [if_neg hs] at h
      obtain ⟨ihA, ihB⟩ := ih _ _ _ _ h
      refine ⟨ihA, fun k hk he => ?_⟩
      match k with
      | 0 => simp [List.getD] at he; exact absurd he hs
      | k + 1 => exact ihB k (by simpa using hk) (by simpa [List.getD] using he)

theorem feAux_none : ∀ (ss : List SrcState) (i : Nat) (acc : Option (Nat × GoTime)),
    feAux i acc ss = none → acc = none ∧ ∀ s ∈ ss, s.err ≠ none := by
  intro ss
  induction ss with
  | nil => intro i acc h; exact ⟨h, by simp⟩
  | cons s ss ih =>
    intro i acc h
    simp only [feAux] at h
    obtain ⟨hacc', hall⟩ := ih _ _ h
    by_cases hs : s.err = none
    · exfalso
      cases hacc : acc with
      | none => subst hacc; simp [hs] at hacc'
      | some v =>
        obtain ⟨j0, t0⟩ := v
        subst hacc
        by_cases hb : timeBefore s.ts t0 = true <;> simp [hs, hb] at hacc'
    · refine ⟨by simpa [hs] using hacc', fun x hx => ?_⟩
      rcases List.mem_cons.mp hx with rfl | hx'
      · exact hs
      · exact hall x hx'

theorem fe_some {srcs : List SrcState} {i : Nat} {t : GoTime}
    (h : findEarliestGo srcs = some (i, t)) :
    i < srcs.length ∧ (srcs.getD i dfltSrc).err = none ∧
      (srcs.getD i dfltSrc).ts = t := by
  rcases feAux_mem srcs 0 none i t h with h' | ⟨k, hk, hj, he, ht⟩
  · simp at h'
  · obtain rfl : i = k := by omega
    exact ⟨hk, he, ht⟩

theorem fe_min {srcs : List SrcState} {i : Nat} {t : GoTime}
    (h : findEarliestGo srcs = some (i, t)) :
    ∀ k, k < srcs.length → (srcs.getD k dfltSrc).err = none →
      tle t (srcs.getD k dfltSrc).ts :=
  (feAux_min srcs 0 none i t h).2

theorem fe_none {srcs : List SrcState} (h : findEarliestGo srcs = none) :
    ∀ s ∈ srcs, s.err ≠ none :=
  (feAux_none srcs 0 none h).2

/-!
## Step lemmas for the merge state
-/

theorem advanceSrc_nil (cy : Int) (s : SrcState) (hl : s.lines = []) :
    advanceSrc cy s = { s with rest := [], err := some GoErr.endOfFile } := by
  unfold advanceSrc; rw [hl]

theorem srcStream_of_nil (cy : Int) (s : SrcState) (hl : s.lines = []) :
    srcStream cy s = [(s.ts, s.rest)] := by
  simp [srcStream, hl, futureRecs]

/-- Advancing an alive source with a remaining line pops the head of its
record stream and keeps it alive. -/
theorem srcStream_advance (cy : Int) (s : SrcState) (l : List Char)
    (ls : List (List Char)) (hl : s.lines = l :: ls) :
    srcStream cy (advanceSrc cy s) = (srcStream cy s).tail ∧
      (advanceSrc cy s).err = s.err := by
  unfold advanceSrc
  rw [hl]
  by_cases hp : (parseLogLine cy s.hint l).err = none
  · simp only [hp, if_pos rfl]
    constructor
    · simp [srcStream, hl, futureRecs, hp]
    · trivial
  · simp only [if_neg hp]
    constructor
    · simp [srcStream, hl, futureRecs, hp]
    · trivial

theorem getD_mem_of_lt {l : List SrcState} {i : Nat} (h : i < l.length) :
    l.getD i dfltSrc ∈ l := by
  rw [List.getD_eq_getElem l dfltSrc h]
  exact List.getElem_mem h

theorem getD_set_self {l : List SrcState} {i : Nat} (a : SrcState)
    (h : i < l.length) : (l.set i a).getD i dfltSrc = a := by
  rw [List.getD_eq_getElem _ dfltSrc (by simpa using h)]
  simp [List.getElem_set_self]

theorem getD_set_ne {l : List SrcState} {i j : Nat} (a : SrcState)
    (h : i ≠ j) : (l.set i a).getD j dfltSrc = l.getD j dfltSrc := by
  simp [List.getD, List.getElem?_set_ne h]

theorem ChainInv_set_advance (cy : Int) {srcs : List SrcState} {i : Nat}
    (hi : i < srcs.length) (hinv : ChainInv cy srcs) :
    ChainInv cy (srcs.set i (advanceSrc cy (srcs.getD i dfltSrc))) := by
  intro s hs he
  rcases List.mem_or_eq_of_mem_set hs with hmem | rfl
  · exact hinv s hmem he
  · cases hl : (srcs.getD i dfltSrc).lines with
    | nil =>
      rw [advanceSrc_nil cy _ hl] at he
      simp at he
    | cons l ls =>
      obtain ⟨hstream, herr⟩ := srcStream_advance cy _ l ls hl
      have h0 : (srcs.getD i dfltSrc).err = none := by rw [← herr]; exact he
      have hchain := hinv _ (getD_mem_of_lt hi) h0
      rw [hstream, List.map_tail]
      exact hchain.tail

theorem tle_ts_advance (cy : Int) (s : SrcState) {l : List Char}
    {ls : List (List Char)} (hl : s.lines = l :: ls)
    (hc : List.Chain' tle ((srcStream cy s).map Prod.fst)) :
    tle s.ts (advanceSrc cy s).ts := by
  unfold advanceSrc
  rw [hl]
  by_cases hp : (parseLogLine cy s.hint l).err = none
  · simp only [hp, if_pos rfl]
    have : (srcStream cy s).map Prod.fst =
        s.ts :: (parseLogLine cy s.hint l).ts ::
          (futureRecs cy (parseLogLine cy s.hint l).ts
            (parseLogLine cy s.hint l).hint ls).map Prod.fst := by
      simp [srcStream, hl, futureRecs, hp]
    rw [this] at hc
    exact hc.rel_head
  · simp only [if_neg hp]
    exact tle_refl s.ts

theorem fe_min_mem {srcs : List SrcState} {i : Nat} {t : GoTime}
    (h : findEarliestGo srcs = some (i, t)) :
    ∀ s ∈ srcs, s.err = none → tle t s.ts := by
  intro s hs he
  obtain ⟨k, hk, rfl⟩ := List.mem_iff_getElem.mp hs
  have hg : srcs.getD k dfltSrc = srcs[k] := List.getD_eq_getElem srcs dfltSrc hk
  have := fe_min h k hk (by rw [hg]; exact he)
  rwa [hg] at this

/-- After advancing the selected (minimal) source, the selected instant is
a lower bound for every alive pending instant. -/
theorem step_bound (cy : Int) {srcs : List SrcState} {i : Nat} {t : GoTime}
    (hfe : findEarliestGo srcs = some (i, t)) (hinv : ChainInv cy srcs) :
    ∀ s ∈ srcs.set i (advanceSrc cy (srcs.getD i dfltSrc)),
      s.err = none → tle t s.ts := by
  obtain ⟨hlen, herr, hts⟩ := fe_some hfe
  intro s hs he
  rcases List.mem_or_eq_of_mem_set hs with hmem | rfl
  · exact fe_min_mem hfe s hmem he
  · cases hl : (srcs.getD i dfltSrc).lines with
    | nil => rw [advanceSrc_nil cy _ hl] at he; simp at he
    | cons l ls =>
      have hchain := hinv _ (getD_mem_of_lt hlen) herr
      have := tle_ts_advance cy _ hl hchain
      rw [hts] at this
      exact this

/-- Every record the loop emits is bounded below by any lower bound of
the alive pending instants. -/
theorem mergeLoopF_lb (cy : Int) (sT eT : GoTime) :
    ∀ (fuel : Nat) (srcs : List SrcState) (t0 : GoTime),
      ChainInv cy srcs → (∀ s ∈ srcs, s.err = none → tle t0 s.ts) →
      ∀ r ∈ mergeLoopF cy sT eT fuel srcs, tle t0 r.1 := by
  intro fuel
  induction fuel with
  | zero => intro srcs t0 _ _ r hr; simp [mergeLoopF] at hr
  | succ fuel ih =>
    intro srcs t0 hinv hbd r hr
    rw [mergeLoopF] at hr
    cases hfe : findEarliestGo srcs with
    | none => simp [hfe] at hr
    | some v =>
      obtain ⟨i, t⟩ := v
      obtain ⟨hlen, herr, hts⟩ := fe_some hfe
      have ht0t : tle t0 t := by
        rw [← hts]; exact hbd _ (getD_mem_of_lt hlen) herr
      simp only [hfe] at hr
      by_cases hbrk : (!timeIsZero eT && timeAfter t eT) = true
      · simp [hbrk] at hr
      · rw [if_neg hbrk, if_pos herr] at hr
        rcases List.mem_append.mp hr with hout | hrec
        · rcases hemit : (timeIsZero sT || !timeBefore t sT) with _ | _ <;>
            rw [hemit] at hout
          · simp at hout
          · simp at hout
            rw [hout]
            exact ht0t
        · exact ih _ t0 (ChainInv_set_advance cy hlen hinv)
            (fun s hs he => tle_trans ht0t (step_bound cy hfe hinv s hs he))
            r hrec

/-- The merge output is globally non-decreasing whenever every alive
source's stream is. -/
theorem mergeLoopF_sorted (cy : Int) (sT eT : GoTime) :
    ∀ (fuel : Nat) (srcs : List SrcState), ChainInv cy srcs →
      List.Pairwise (fun a b : Rec => tle a.1 b.1)
        (mergeLoopF cy sT eT fuel srcs) := by
  intro fuel
  induction fuel with
  | zero => intro srcs _; simp [mergeLoopF]
  | succ fuel ih =>
    intro srcs hinv
    rw [mergeLoopF]
    cases hfe : findEarliestGo srcs with
    | none => simp
    | some v =>
      obtain ⟨i, t⟩ := v
      obtain ⟨hlen, herr, hts⟩ := fe_some hfe
      simp only [hfe]
      by_cases hbrk : (!timeIsZero eT && timeAfter t eT) = true
      · simp [hbrk]
      · rw [if_neg hbrk, if_pos herr]
        refine List.pairwise_append.mpr ⟨?_, ih _ (ChainInv_set_advance cy hlen hinv), ?_⟩
        · rcases hemit : (timeIsZero sT || !timeBefore t sT) with _ | _ <;> simp
        · intro a ha b hb
          rcases hemit : (timeIsZero sT || !timeBefore t sT) with _ | _ <;>
            rw [hemit] at ha <;> simp at ha
          rw [ha]
          exact mergeLoopF_lb cy sT eT fuel _ t
            (ChainInv_set_advance cy hlen hinv) (step_bound cy hfe hinv) b hb

/-!
## Termination measure and completeness of the loop
-/

theorem advanceSrc_cons (cy : Int) (s : SrcState) {l : List Char}
    {ls : List (List Char)} (hl : s.lines = l :: ls) :
    (advanceSrc cy s).lines = ls ∧ (advanceSrc cy s).err = s.err := by
  unfold advanceSrc
  rw [hl]
  by_cases hp : (parseLogLine cy s.hint l).err = none
  · simp [hp]
  · simp [hp]

theorem measure_advance_lt (cy : Int) :
    ∀ (srcs : List SrcState) (i : Nat), i < srcs.length →
      (srcs.getD i dfltSrc).err = none →
      totalLines (srcs.set i (advanceSrc cy (srcs.getD i dfltSrc))) +
          aliveCount (srcs.set i (advanceSrc cy (srcs.getD i dfltSrc))) <
        totalLines srcs + aliveCount srcs := by
  intro srcs
  induction srcs with
  | nil => intro i h; simp at h
  | cons s ss ih =>
    intro i hi he
    match i with
    | 0 =>
      simp only [List.getD_cons_zero] at he ⊢
      simp only [List.set_cons_zero, totalLines, aliveCount, List.map_cons,
        List.sum_cons]
      cases hl : s.lines with
      | nil =>
        rw [advanceSrc_nil cy s hl]
        simp [hl, he]
      | cons l ls =>
        obtain ⟨h1, h2⟩ := advanceSrc_cons cy s hl
        rw [h1, h2, if_pos he]
        simp only [List.length_cons]
        omega
    | i + 1 =>
      simp only [List.getD_cons_succ] at he ⊢
      simp only [List.set_cons_succ, totalLines, aliveCount, List.map_cons,
        List.sum_cons]
      have := ih i (by simpa using hi) he
      simp only [totalLines, aliveCount] at this
      omega

theorem aliveCount_zero {srcs : List SrcState} (h : aliveCount srcs = 0) :
    ∀ s ∈ srcs, s.err ≠ none := by
  induction srcs with
  | nil => simp
  | cons s ss ih =>
    simp only [aliveCount, List.map_cons, List.sum_cons] at h
    intro x hx
    rcases List.mem_cons.mp hx with rfl | hx'
    · intro he; rw [if_pos he] at h; omega
    · have hsum : (List.map (fun s => if s.err = none then 1 else 0) ss).sum = 0 := by
        by_cases hse : s.err = none
        · rw [if_pos hse] at h; omega
        · rw [if_neg hse] at h; omega
      exact ih (by simpa [aliveCount] using hsum) x hx'

theorem chain'_le_of_head :
    ∀ (l : List GoTime) (a : GoTime), List.Chain' tle (a :: l) →
      ∀ x ∈ l, tle a x := by
  intro l
  induction l with
  | nil => simp
  | cons b l ih =>
    intro a h x hx
    have hab : tle a b := h.rel_head
    rcases List.mem_cons.mp hx with rfl | hx'
    · exact hab
    · exact tle_trans hab (ih b h.tail x hx')

theorem stream_head_le (cy : Int) (s : SrcState)
    (hc : List.Chain' tle ((srcStream cy s).map Prod.fst)) :
    ∀ q ∈ srcStream cy s, tle s.ts q.1 := by
  intro q hq
  have h1 : q.1 ∈ (srcStream cy s).map Prod.fst := List.mem_map_of_mem _ hq
  rw [show srcStream cy s = (s.ts, s.rest) :: futureRecs cy s.ts s.hint s.lines
    from rfl, List.map_cons] at h1 hc
  rcases List.mem_cons.mp h1 with h' | h'
  · rw [h']; exact tle_refl _
  · exact chain'_le_of_head _ _ hc _ h'

theorem pend_mem_alive (cy : Int) :
    ∀ (ss : List SrcState) (n : Nat) (r : Rec), r ∈ pendRecsAux cy n ss →
      ∃ s ∈ ss, s.err = none ∧ ∃ q ∈ srcStream cy s, r.1 = q.1 := by
  intro ss
  induction ss with
  | nil => intro n r h; simp [pendRecsAux] at h
  | cons s ss ih =>
    intro n r h
    rcases List.mem_append.mp h with h' | h'
    · by_cases hs : s.err = none
      · rw [if_pos hs] at h'
        obtain ⟨q, hq, rfl⟩ := List.mem_map.mp h'
        exact ⟨s, List.mem_cons_self s ss, hs, q, hq, rfl⟩
      · rw [if_neg hs] at h'; simp at h'
    · obtain ⟨x, hx, hrest⟩ := ih (n + 1) r h'
      exact ⟨x, List.mem_cons_of_mem s hx, hrest⟩

/-- One merge step, seen on the pending-record multiset: a record of the
state is either the selected source's pending head or survives into the
advanced state. -/
theorem pend_step (cy : Int) :
    ∀ (ss : List SrcState) (n : Nat) (i : Nat), i < ss.length →
      (ss.getD i dfltSrc).err = none →
      ∀ r ∈ pendRecsAux cy n ss,
        r = ((ss.getD i dfltSrc).ts, n + i, (ss.getD i dfltSrc).rest) ∨
          r ∈ pendRecsAux cy n (ss.set i (advanceSrc cy (ss.getD i dfltSrc))) := by
  intro ss
  induction ss with
  | nil => intro n i h; simp at h
  | cons s ss ih =>
    intro n i hi he r hr
    match i with
    | 0 =>
      simp only [List.getD_cons_zero] at he ⊢
      simp only [List.set_cons_zero]
      rcases List.mem_append.mp hr with h' | h'
      · rw [if_pos he] at h'
        obtain ⟨q, hq, rfl⟩ := List.mem_map.mp h'
        rcases List.mem_cons.mp (by exact hq :
            q ∈ (s.ts, s.rest) :: futureRecs cy s.ts s.hint s.lines) with rfl | hq'
        · left; simp
        · right
          cases hl : s.lines with
          | nil =>
            rw [hl] at hq'
            simp [futureRecs] at hq'
          | cons l ls =>
            obtain ⟨hstream, herr2⟩ := srcStream_advance cy s l ls hl
            apply List.mem_append.mpr; left
            rw [if_pos (by rw [herr2]; exact he)]
            apply List.mem_map.mpr
            refine ⟨q, ?_, rfl⟩
            rw [hstream]
            exact hq'
      · right; exact List.mem_append.mpr (Or.inr h')
    | i + 1 =>
      simp only [List.getD_cons_succ] at he ⊢
      simp only [List.set_cons_succ]
      rcases List.mem_append.mp hr with h' | h'
      · right; exact List.mem_append.mpr (Or.inl h')
      · rcases ih (n + 1) i (by simpa using hi) he r h' with hl | hr'
        · left
          rw [hl]
          have hn : n + 1 + i = n + (i + 1) := by omega
          rw [hn]
        · right; exact List.mem_append.mpr (Or.inr hr')

/-- Completeness: with enough fuel (as `mergeLogs` supplies) and
non-decreasing alive sources, every pending record inside the window is
emitted. -/
theorem mergeLoopF_complete (cy : Int) (sT eT : GoTime) :
    ∀ (fuel : Nat) (srcs : List SrcState),
      totalLines srcs + aliveCount srcs ≤ fuel → ChainInv cy srcs →
      ∀ r ∈ pendRecs cy srcs,
        (timeIsZero sT || !timeBefore r.1 sT) = true →
        (timeIsZero eT || !timeAfter r.1 eT) = true →
        r ∈ mergeLoopF cy sT eT fuel srcs := by
  intro fuel
  induction fuel with
  | zero =>
    intro srcs hb hinv r hr hws hwe
    exfalso
    obtain ⟨s, hs, he, -⟩ := pend_mem_alive cy srcs 0 r hr
    have hz : aliveCount srcs = 0 := by omega
    exact aliveCount_zero hz s hs he
  | succ fuel ih =>
    intro srcs hb hinv r hr hws hwe
    rw [mergeLoopF]
    cases hfe : findEarliestGo srcs with
    | none =>
      exfalso
      obtain ⟨s, hs, he, -⟩ := pend_mem_alive cy srcs 0 r hr
      exact fe_none hfe s hs he
    | some v =>
      obtain ⟨i, t⟩ := v
      obtain ⟨hlen, herr, hts⟩ := fe_some hfe
      simp only [hfe]
      by_cases hbrk : (!timeIsZero eT && timeAfter t eT) = true
      · exfalso
        obtain ⟨s, hs, he, q, hq, hrq⟩ := pend_mem_alive cy srcs 0 r hr
        have h1 : tle t s.ts := fe_min_mem hfe s hs he
        have h2 : tle s.ts q.1 := stream_head_le cy s (hinv s hs he) q hq
        have h3 : tle t r.1 := by rw [hrq]; exact tle_trans h1 h2
        have hb1 : timeIsZero eT = false ∧ timeAfter t eT = true := by
          rcases z : timeIsZero eT <;> rcases a : timeAfter t eT <;>
            simp [z, a] at hbrk ⊢
        have h4 : timeAfter r.1 eT = true := after_mono hb1.2 h3
        rw [hb1.1, h4] at hwe
        simp at hwe
      · rw [if_neg hbrk, if_pos herr]
        rcases pend_step cy srcs 0 i hlen herr r hr with hhead | htail
        · apply List.mem_append.mpr
          left
          have hr1 : r = (t, i, (srcs.getD i dfltSrc).rest) := by
            rw [hhead, hts]
            simp
          rw [hr1] at hws ⊢
          rw [if_pos hws]
          simp
        · apply List.mem_append.mpr
          right
          refine ih _ ?_ (ChainInv_set_advance cy hlen hinv) r htail hws hwe
          have := measure_advance_lt cy srcs i hlen herr
          omega

/-!
## Fault isolation: errored sources
-/

/-- A source whose error slot is set never contributes a record. -/
theorem mergeLoopF_no_emit_of_err (cy : Int) (sT eT : GoTime) :
    ∀ (fuel : Nat) (srcs : List SrcState) (i : Nat),
      (srcs.getD i dfltSrc).err ≠ none →
      ∀ r ∈ mergeLoopF cy sT eT fuel srcs, r.2.1 ≠ i := by
  intro fuel
  induction fuel with
  | zero => intro srcs i _ r hr; simp [mergeLoopF] at hr
  | succ fuel ih =>
    intro srcs i hie r hr
    rw [mergeLoopF] at hr
    cases hfe : findEarliestGo srcs with
    | none => simp [hfe] at hr
    | some v =>
      obtain ⟨j, t⟩ := v
      obtain ⟨hlen, herr, hts⟩ := fe_some hfe
      have hji : j ≠ i := fun hji => hie (hji ▸ herr)
      simp only [hfe] at hr
      by_cases hbrk : (!timeIsZero eT && timeAfter t eT) = true
      · simp [hbrk] at hr
      · rw [if_neg hbrk, if_pos herr] at hr
        rcases List.mem_append.mp hr with hout | hrec
        · rcases hemit : (timeIsZero sT || !timeBefore t sT) with _ | _ <;>
            rw [hemit] at hout
          · simp at hout
          · simp at hout
            rw [hout]
            exact hji
        · refine ih _ i ?_ r hrec
          rw [getD_set_ne _ hji]
          exact hie

/-- Replacing a dead source by another dead source does not change the
minimum scan. -/
theorem feAux_set_err :
    ∀ (ss : List SrcState) (k : Nat) (s' : SrcState) (i : Nat)
      (acc : Option (Nat × GoTime)),
      k < ss.length → (ss.getD k dfltSrc).err ≠ none → s'.err ≠ none →
      feAux i acc (ss.set k s') = feAux i acc ss := by
  intro ss
  induction ss with
  | nil => intro k s' i acc hk; simp at hk
  | cons s ss ih =>
    intro k s' i acc hk hke hs'
    match k with
    | 0 =>
      simp only [List.getD_cons_zero] at hke
      simp only [List.set_cons_zero, feAux]
      rw [if_neg hs', if_neg hke]
    | k + 1 =>
      simp only [List.getD_cons_succ] at hke
      simp only [List.set_cons_succ, feAux]
      exact ih k s' (i + 1) _ (by simpa using hk) hke hs'

/-- The loop never reads an errored source: its whole state is
irrelevant, as long as it stays errored. -/
theorem mergeLoopF_set_err (cy : Int) (sT eT : GoTime) :
    ∀ (fuel : Nat) (srcs : List SrcState) (i : Nat) (s' : SrcState),
      i < srcs.length → (srcs.getD i dfltSrc).err ≠ none → s'.err ≠ none →
      mergeLoopF cy sT eT fuel (srcs.set i s') = mergeLoopF cy sT eT fuel srcs := by
  intro fuel
  induction fuel with
  | zero => intro srcs i s' _ _ _; rfl
  | succ fuel ih =>
    intro srcs i s' hlen hie hs'
    have hfe_eq : findEarliestGo (srcs.set i s') = findEarliestGo srcs :=
      feAux_set_err srcs i s' 0 none hlen hie hs'
    rw [mergeLoopF, mergeLoopF, hfe_eq]
    cases hfe : findEarliestGo srcs with
    | none => rfl
    | some v =>
      obtain ⟨j, t⟩ := v
      obtain ⟨hjlen, hjerr, hjts⟩ := fe_some hfe
      have hji : i ≠ j := fun h => hie (by rw [h]; exact hjerr)
      simp only [hfe]
      by_cases hbrk : (!timeIsZero eT && timeAfter t eT) = true
      · rw [if_pos hbrk, if_pos hbrk]
      · rw [if_neg hbrk, if_neg hbrk]
        have hg : (srcs.set i s').getD j dfltSrc = srcs.getD j dfltSrc :=
          getD_set_ne s' hji
        rw [hg]
        congr 1
        rw [List.set_comm _ _ _ hji]
        apply ih
        · simpa using hlen
        · rw [getD_set_ne _ (Ne.symm hji)]
          exact hie
        · exact hs'

/-!
## Bridging per-source success instants and pending streams
-/

/-- If the instants the reader reports as timestamped are non-decreasing
(from the carried instant `t0` on), so is the stream of pending instants:
continuation lines only repeat the carried instant. -/
theorem chain_succ_futureRecs (cy : Int) :
    ∀ (lines : List (List Char)) (hint : Option Nat) (t0 : GoTime),
      List.Chain' tle (t0 :: successInstants cy hint lines) →
      List.Chain' tle (t0 :: (futureRecs cy t0 hint lines).map Prod.fst) := by
  intro lines
  induction lines with
  | nil => intro hint t0 _; simp [futureRecs]
  | cons l ls ih =>
    intro hint t0 h
    by_cases hp : (parseLogLine cy hint l).err = none
    · have hs : successInstants cy hint (l :: ls) =
          (parseLogLine cy hint l).ts ::
            successInstants cy (parseLogLine cy hint l).hint ls := by
        simp [successInstants, hp]
      rw [hs] at h
      have h1 : tle t0 (parseLogLine cy hint l).ts := h.rel_head
      have h2 := ih (parseLogLine cy hint l).hint (parseLogLine cy hint l).ts h.tail
      have hf : futureRecs cy t0 hint (l :: ls) =
          ((parseLogLine cy hint l).ts, (parseLogLine cy hint l).rest) ::
            futureRecs cy (parseLogLine cy hint l).ts (parseLogLine cy hint l).hint ls := by
        simp [futureRecs, hp]
      rw [hf, List.map_cons, List.chain'_cons]
      exact ⟨h1, h2⟩
    · have hs : successInstants cy hint (l :: ls) =
          successInstants cy (parseLogLine cy hint l).hint ls := by
        simp [successInstants, hp]
      rw [hs] at h
      have h2 := ih (parseLogLine cy hint l).hint t0 h
      have hf : futureRecs cy t0 hint (l :: ls) =
          (t0, (parseLogLine cy hint l).rest) ::
            futureRecs cy t0 (parseLogLine cy hint l).hint ls := by
        simp [futureRecs, hp]
      rw [hf, List.map_cons, List.chain'_cons]
      exact ⟨tle_refl t0, h2⟩

/-- The seeded merge state satisfies the chain invariant whenever every
source's timestamped instants are non-decreasing. -/
theorem seed_ChainInv (cy : Int) (sources : List (List (List Char)))
    (h : ∀ ls ∈ sources, List.Chain' tle (successInstants cy none ls)) :
    ChainInv cy (sources.map (seedSrc cy)) := by
  intro s hs he
  obtain ⟨ls, hls, rfl⟩ := List.mem_map.mp hs
  cases hl : ls with
  | nil => rw [hl] at he; simp [seedSrc] at he
  | cons l rest =>
    rw [hl] at he
    have hp : (parseLogLine cy none l).err = none := by
      simpa [seedSrc] using he
    have hchain := h ls hls
    rw [hl] at hchain
    rw [show successInstants cy none (l :: rest) =
        (parseLogLine cy none l).ts ::
          successInstants cy (parseLogLine cy none l).hint rest from by
      simp [successInstants, hp]] at hchain
    have hb := chain_succ_futureRecs cy rest (parseLogLine cy none l).hint
      (parseLogLine cy none l).ts hchain
    simpa [srcStream, seedSrc] using hb

/-!
## Claim theorems: the merge scheduler
-/

/-- C1: for any window configuration and any set of sources whose
individually reported timestamped instants are non-decreasing, the
sequence of records `mergeLogs` sends on its channel is globally
non-decreasing by instant; moreover each iteration's selection
(`findEarliestGo`) picks an alive pending record whose instant is a
minimum over all non-retired sources. -/
theorem merge_output_sorted (cy : Int) (sT eT : GoTime)
    (sources : List (List (List Char)))
    (h : ∀ ls ∈ sources, List.Chain' tle (successInstants cy none ls)) :
    List.Pairwise (fun a b : Rec => tle a.1 b.1) (mergeLogs cy sT eT sources) ∧
      (∀ (srcs : List SrcState) (i : Nat) (t : GoTime),
        findEarliestGo srcs = some (i, t) →
        (srcs.getD i dfltSrc).err = none ∧ (srcs.getD i dfltSrc).ts = t ∧
          ∀ s ∈ srcs, s.err = none → tle t s.ts) :=
  ⟨mergeLoopF_sorted cy sT eT _ _ (seed_ChainInv cy sources h),
    fun _ _ _ hfe => ⟨(fe_some hfe).2.1, (fe_some hfe).2.2, fe_min_mem hfe⟩⟩

theorem merge_output_sorted_witness :
    (∀ ls ∈ [["2024-01-01 10:00:00 hello".toList,
              "2024-01-01 10:00:05 world".toList],
             ["2024-01-01 10:00:02 foo".toList]],
        List.Chain' tle (successInstants 2026 none ls)) ∧
      List.Pairwise (fun a b : Rec => tle a.1 b.1)
        (mergeLogs 2026 timeZero timeZero
          [["2024-01-01 10:00:00 hello".toList,
            "2024-01-01 10:00:05 world".toList],
           ["2024-01-01 10:00:02 foo".toList]]) :=
  ⟨by decide, (merge_output_sorted 2026 timeZero timeZero _ (by decide)).1⟩

/-- Every emitted record passes the start and end checks of the loop. -/
theorem mergeLoopF_window (cy : Int) (sT eT : GoTime) :
    ∀ (fuel : Nat) (srcs : List SrcState) (r : Rec),
      r ∈ mergeLoopF cy sT eT fuel srcs →
      (timeIsZero sT = false → timeBefore r.1 sT = false) ∧
      (timeIsZero eT = false → timeAfter r.1 eT = false) := by
  intro fuel
  induction fuel with
  | zero => intro srcs r hr; simp [mergeLoopF] at hr
  | succ fuel ih =>
    intro srcs r hr
    rw [mergeLoopF] at hr
    cases hfe : findEarliestGo srcs with
    | none => simp [hfe] at hr
    | some v =>
      obtain ⟨i, t⟩ := v
      obtain ⟨hlen, herr, hts⟩ := fe_some hfe
      simp only [hfe] at hr
      by_cases hbrk : (!timeIsZero eT && timeAfter t eT) = true
      · simp [hbrk] at hr
      · rw [if_neg hbrk, if_pos herr] at hr
        rcases List.mem_append.mp hr with hout | hrec
        · rcases hemit : (timeIsZero sT || !timeBefore t sT) with _ | _ <;>
            rw [hemit] at hout
          · simp at hout
          · simp at hout
            rw [hout]
            constructor
            · intro hzs
              rw [hzs] at hemit
              simpa using hemit
            · intro hze
              have hbf : (!timeIsZero eT && timeAfter t eT) = false := by
                simpa using hbrk
              rw [hze] at hbf
              simpa using hbf
        · exact ih _ r hrec

/-- C2: with a configured `[start, end]` bound no emitted record lies
strictly before `start` or strictly after `end`; a selected minimum
strictly after `end` terminates the whole merge before any emission
decision; a selected minimum strictly before `start` is consumed (its
cursor advanced) without emission. -/
theorem merge_window_bounds (cy : Int) (sT eT : GoTime) :
    (∀ (sources : List (List (List Char))) (r : Rec),
        r ∈ mergeLogs cy sT eT sources →
        (timeIsZero sT = false → timeBefore r.1 sT = false) ∧
        (timeIsZero eT = false → timeAfter r.1 eT = false)) ∧
    (∀ (fuel : Nat) (srcs : List SrcState) (i : Nat) (t : GoTime),
        findEarliestGo srcs = some (i, t) →
        timeIsZero eT = false → timeAfter t eT = true →
        mergeLoopF cy sT eT (fuel + 1) srcs = []) ∧
    (∀ (fuel : Nat) (srcs : List SrcState) (i : Nat) (t : GoTime),
        findEarliestGo srcs = some (i, t) →
        (!timeIsZero eT && timeAfter t eT) = false →
        timeIsZero sT = false → timeBefore t sT = true →
        mergeLoopF cy sT eT (fuel + 1) srcs =
          mergeLoopF cy sT eT fuel
            (srcs.set i (if (srcs.getD i dfltSrc).err = none then
              advanceSrc cy (srcs.getD i dfltSrc) else srcs.getD i dfltSrc))) := by
  refine ⟨fun sources r hr => mergeLoopF_window cy sT eT _ _ r hr, ?_, ?_⟩
  · intro fuel srcs i t hfe hz ha
    rw [mergeLoopF]
    simp only [hfe]
    rw [if_pos (by rw [hz, ha]; rfl)]
  · intro fuel srcs i t hfe hbrk hzs hbs
    rw [mergeLoopF]
    simp only [hfe]
    rw [if_neg (by simp [hbrk]), if_neg (by rw [hzs, hbs]; simp)]
    rw [List.nil_append]

theorem merge_window_bounds_witness :
    timeBefore (⟨2024, 1, 1, 10, 0, 2, 0, 0⟩ : GoTime)
        ⟨2024, 1, 1, 10, 0, 1, 0, 0⟩ = false ∧
      timeAfter (⟨2024, 1, 1, 10, 0, 2, 0, 0⟩ : GoTime)
        ⟨2024, 1, 1, 10, 0, 5, 0, 0⟩ = false :=
  have h := (merge_window_bounds 2026 ⟨2024, 1, 1, 10, 0, 1, 0, 0⟩
      ⟨2024, 1, 1, 10, 0, 5, 0, 0⟩).1
    [["2024-01-01 10:00:02 foo".toList]]
    (⟨2024, 1, 1, 10, 0, 2, 0, 0⟩, 0, " foo".toList) (by decide)
  ⟨h.1 (by decide), h.2 (by decide)⟩

/-- C5: a continuation line (no timestamp detected) advances the cursor
to the full original line as payload while keeping the source's own
`lastInstant`, hint and aliveness; the emission step then sends exactly
the pending `(instant, index, payload)` of the selected source. -/
theorem continuation_keeps_instant (cy : Int) (sT eT : GoTime) (s : SrcState)
    (l : List Char) (ls : List (List Char)) (ha : s.err = none)
    (hl : s.lines = l :: ls)
    (hp : (parseLogLine cy s.hint l).err = some GoErr.noTimestamp) :
    advanceSrc cy s = { s with lines := ls, rest := l } ∧
    (advanceSrc cy s).ts = s.ts ∧
    (advanceSrc cy s).hint = s.hint ∧
    (advanceSrc cy s).err = none ∧
    (∀ (fuel : Nat) (srcs : List SrcState) (i : Nat) (t : GoTime),
        findEarliestGo srcs = some (i, t) →
        (!timeIsZero eT && timeAfter t eT) = false →
        (timeIsZero sT || !timeBefore t sT) = true →
        mergeLoopF cy sT eT (fuel + 1) srcs =
          (t, i, (srcs.getD i dfltSrc).rest) ::
            mergeLoopF cy sT eT fuel
              (srcs.set i (advanceSrc cy (srcs.getD i dfltSrc)))) := by
  have hres := parseLogLine_noTs hp
  have hadv : advanceSrc cy s = { s with lines := ls, rest := l } := by
    unfold advanceSrc
    rw [hl]
    simp [hres]
  refine ⟨hadv, by rw [hadv], by rw [hadv], by rw [hadv]; exact ha, ?_⟩
  intro fuel srcs i t hfe hbrk hemit
  obtain ⟨hlen, herr, hts⟩ := fe_some hfe
  rw [mergeLoopF]
  simp only [hfe]
  rw [if_neg (by simp [hbrk]), if_pos hemit, if_pos herr]
  rw [List.singleton_append]

theorem continuation_keeps_instant_witness :
    (advanceSrc 2026 ⟨["two words".toList], ⟨2024, 1, 1, 10, 0, 0, 0, 0⟩,
        " x".toList, none, none⟩).ts = ⟨2024, 1, 1, 10, 0, 0, 0, 0⟩ ∧
      (advanceSrc 2026 ⟨["two words".toList], ⟨2024, 1, 1, 10, 0, 0, 0, 0⟩,
        " x".toList, none, none⟩).rest = "two words".toList :=
  have h := continuation_keeps_instant 2026 timeZero timeZero
    ⟨["two words".toList], ⟨2024, 1, 1, 10, 0, 0, 0, 0⟩, " x".toList, none, none⟩
    ("two words".toList) [] (by decide) (by decide) (by decide)
  ⟨h.2.1, by rw [h.1]⟩

/-- C7: once a source's error slot is set it is never consulted again:
no record carries its index, its entire remaining state is irrelevant to
the output, and the merge of the remaining sources is still globally
ordered and still emits every in-window pending record of the alive
sources. -/
theorem retired_source_isolation (cy : Int) (sT eT : GoTime)
    (srcs : List SrcState) (i : Nat) (e : GoErr)
    (hi : i < srcs.length) (he : (srcs.getD i dfltSrc).err = some e) :
    (∀ (fuel : Nat), ∀ r ∈ mergeLoopF cy sT eT fuel srcs, r.2.1 ≠ i) ∧
    (∀ (fuel : Nat) (s' : SrcState), s'.err ≠ none →
        mergeLoopF cy sT eT fuel (srcs.set i s') =
          mergeLoopF cy sT eT fuel srcs) ∧
    (∀ (fuel : Nat), ChainInv cy srcs →
        List.Pairwise (fun a b : Rec => tle a.1 b.1)
          (mergeLoopF cy sT eT fuel srcs)) ∧
    (∀ (fuel : Nat), totalLines srcs + aliveCount srcs ≤ fuel →
        ChainInv cy srcs →
        ∀ r ∈ pendRecs cy srcs,
          (timeIsZero sT || !timeBefore r.1 sT) = true →
          (timeIsZero eT || !timeAfter r.1 eT) = true →
          r ∈ mergeLoopF cy sT eT fuel srcs) := by
  refine ⟨?_, ?_, ?_, ?_⟩
  · intro fuel r hr
    exact mergeLoopF_no_emit_of_err cy sT eT fuel srcs i (by rw [he]; simp) r hr
  · intro fuel s' hs'
    exact mergeLoopF_set_err cy sT eT fuel srcs i s' hi (by rw [he]; simp) hs'
  · intro fuel hinv
    exact mergeLoopF_sorted cy sT eT fuel srcs hinv
  · intro fuel hb hinv r hr hws hwe
    exact mergeLoopF_complete cy sT eT fuel srcs hb hinv r hr hws hwe

theorem retired_source_isolation_witness :
    mergeLoopF 2026 timeZero timeZero 5
        ([⟨["2024-01-01 10:00:05 b".toList], ⟨2024, 1, 1, 10, 0, 0, 0, 0⟩,
            " a".toList, none, some 4⟩,
          ⟨["2024-01-01 10:00:02 foo".toList], timeZero, [],
            some GoErr.noTimestamp, none⟩].set 1
          ⟨[], timeZero, "junk".toList, some GoErr.endOfFile, some 0⟩) =
      mergeLoopF 2026 timeZero timeZero 5
        [⟨["2024-01-01 10:00:05 b".toList], ⟨2024, 1, 1, 10, 0, 0, 0, 0⟩,
            " a".toList, none, some 4⟩,
          ⟨["2024-01-01 10:00:02 foo".toList], timeZero, [],
            some GoErr.noTimestamp, none⟩] :=
  (retired_source_isolation 2026 timeZero timeZero
      [⟨["2024-01-01 10:00:05 b".toList], ⟨2024, 1, 1, 10, 0, 0, 0, 0⟩,
          " a".toList, none, some 4⟩,
        ⟨["2024-01-01 10:00:02 foo".toList], timeZero, [],
          some GoErr.noTimestamp, none⟩] 1 GoErr.noTimestamp
      (by decide) (by decide)).2.1 5
    ⟨[], timeZero, "junk".toList, some GoErr.endOfFile, some 0⟩ (by decide)

/-- C10: a source whose very first line carries no recognizable
timestamp gets `NoTimestampError` in its error slot during seeding and
is silently dropped: no record of the merge ever originates from it. -/
theorem seed_continuation_drops_source (cy : Int) (sT eT : GoTime)
    (sources : List (List (List Char))) (i : Nat) (l : List Char)
    (ls : List (List Char)) (hl : sources.getD i [] = l :: ls)
    (hp : (parseLogLine cy none l).err = some GoErr.noTimestamp) :
    (seedSrc cy (sources.getD i [])).err = some GoErr.noTimestamp ∧
      ∀ r ∈ mergeLogs cy sT eT sources, r.2.1 ≠ i := by
  have h1 : (seedSrc cy (sources.getD i [])).err = some GoErr.noTimestamp := by
    rw [hl]
    simp [seedSrc, hp]
  refine ⟨h1, fun r hr => ?_⟩
  apply mergeLoopF_no_emit_of_err cy sT eT _ _ i ?_ r hr
  by_cases hlen : i < sources.length
  · have hmap : (sources.map (seedSrc cy)).getD i dfltSrc =
        seedSrc cy (sources.getD i []) := by
      rw [List.getD_eq_getElem _ _ (by simpa using hlen),
        List.getD_eq_getElem _ _ hlen]
      simp
    rw [hmap, h1]
    simp
  · rw [List.getD_eq_default _ _ (by simpa using not_lt.mp hlen)]
    simp [dfltSrc]

theorem seed_continuation_drops_source_witness :
    (seedSrc 2026 ["no ts".toList, "2024-01-01 10:00:03 x".toList]).err =
        some GoErr.noTimestamp ∧
      ((⟨2024, 1, 1, 10, 0, 2, 0, 0⟩, 1, " foo".toList) : Rec).2.1 ≠ 0 :=
  have h := seed_continuation_drops_source 2026 timeZero timeZero
    [["no ts".toList, "2024-01-01 10:00:03 x".toList],
     ["2024-01-01 10:00:02 foo".toList]] 0 ("no ts".toList)
    ["2024-01-01 10:00:03 x".toList] (by decide) (by decide)
  ⟨h.1, h.2 (⟨2024, 1, 1, 10, 0, 2, 0, 0⟩, 1, " foo".toList) (by decide)⟩

/-!
## Claim theorems: pattern selection
-/

theorem triple_inj {j1 j2 a1 a2 b1 b2 : Nat}
    (h : (some (j1, a1, b1) : Option (Nat × Nat × Nat)) = some (j2, a2, b2)) :
    j1 = j2 ∧ a1 = a2 ∧ b1 = b2 := by
  injection h with h'
  injection h' with h1 h2
  injection h2 with h3 h4
  exact ⟨h1, h3, h4⟩

/-- When every pattern match on a line has the same span, the candidate
scan of `findBestMatch` keeps a match with the smallest start offset:
the replacement condition degenerates to `loc[0] < resLoc[0]`. -/
theorem fbmAux_equal_span_min (line : List Char) (sp : Nat) :
    ∀ (ps : List (List RTok × List LTok)) (i0 : Nat)
      (acc : Option (Nat × Nat × Nat)),
      (∀ p ∈ ps, ∀ ab ∈ regexFind p.1 line, ab.2 - ab.1 = sp) →
      (∀ j c d, acc = some (j, c, d) → d - c = sp) →
      ∀ j a b, findBestMatchAux line i0 ps acc = some (j, a, b) →
        (∀ j0 c d, acc = some (j0, c, d) → a ≤ c) ∧
        (∀ p ∈ ps, ∀ ab ∈ regexFind p.1 line, a ≤ ab.1) := by
  intro ps
  induction ps with
  | nil =>
    intro i0 acc hps hacc j a b h
    simp only [findBestMatchAux] at h
    refine ⟨fun j0 c d h0 => ?_, by simp⟩
    rw [h0] at h
    obtain ⟨-, h2, -⟩ := triple_inj h
    omega
  | cons p ps ih =>
    intro i0 acc hps hacc j a b h
    simp only [findBestMatchAux] at h
    have hps' : ∀ q ∈ ps, ∀ ab ∈ regexFind q.1 line, ab.2 - ab.1 = sp :=
      fun q hq => hps q (List.mem_cons_of_mem p hq)
    cases hr : regexFind p.1 line with
    | none =>
      rw [hr] at h
      obtain ⟨ihA, ihB⟩ := ih (i0 + 1) acc hps' hacc j a b h
      refine ⟨ihA, fun q hq ab hab => ?_⟩
      rcases List.mem_cons.mp hq with rfl | hq'
      · rw [Option.mem_def, hr] at hab
        cases hab
      · exact ihB q hq' ab hab
    | some v =>
      obtain ⟨x, y⟩ := v
      rw [hr] at h
      have hxy : y - x = sp :=
        hps p (List.mem_cons_self p ps) (x, y) (by rw [Option.mem_def, hr])
      cases hacc0 : acc with
      | none =>
        rw [hacc0] at h
        dsimp only at h
        obtain ⟨ihA, ihB⟩ := ih (i0 + 1) (some (i0, x, y)) hps'
          (fun j1 c d h1 => by
            obtain ⟨-, hc, hd⟩ := triple_inj h1
            omega) j a b h
        have hax : a ≤ x := ihA i0 x y rfl
        refine ⟨fun j0 c d h0 => (by cases h0), fun q hq ab hab => ?_⟩
        rcases List.mem_cons.mp hq with rfl | hq'
        · rw [Option.mem_def, hr] at hab
          have hab' : (x, y) = ab := by injection hab
          rw [← hab']
          exact hax
        · exact ihB q hq' ab hab
      | some v0 =>
        obtain ⟨j0, c, d⟩ := v0
        rw [hacc0] at h
        dsimp only at h
        have hdc : d - c = sp := hacc j0 c d hacc0
        by_cases hcond : x < c ∨ y - x > d - c
        · rw [if_pos hcond] at h
          have hxc : x < c := by
            rcases hcond with h' | h'
            · exact h'
            · omega
          obtain ⟨ihA, ihB⟩ := ih (i0 + 1) (some (i0, x, y)) hps'
            (fun j1 c1 d1 h1 => by
              obtain ⟨-, hc, hd⟩ := triple_inj h1
              omega) j a b h
          have hax : a ≤ x := ihA i0 x y rfl
          refine ⟨fun j1 c1 d1 h1 => ?_, fun q hq ab hab => ?_⟩
          · obtain ⟨-, hc, -⟩ := triple_inj h1
            omega
          · rcases List.mem_cons.mp hq with rfl | hq'
            · rw [Option.mem_def, hr] at hab
              have hab' : (x, y) = ab := by injection hab
              rw [← hab']
              exact hax
            · exact ihB q hq' ab hab
        · rw [if_neg hcond] at h
          obtain ⟨ihA, ihB⟩ := ih (i0 + 1) (some (j0, c, d)) hps'
            (fun j1 c1 d1 h1 => by
              obtain ⟨-, hc, hd⟩ := triple_inj h1
              omega) j a b h
          have hac : a ≤ c := ihA j0 c d rfl
          refine ⟨fun j1 c1 d1 h1 => ?_, fun q hq ab hab => ?_⟩
          · obtain ⟨-, hc, -⟩ := triple_inj h1
            omega
          · rcases List.mem_cons.mp hq with rfl | hq'
            · rw [Option.mem_def, hr] at hab
              have hab' : (x, y) = ab := by injection hab
              rw [← hab']
              show a ≤ x
              rw [not_or] at hcond
              omega
            · exact ihB q hq' ab hab

/-- C3 (amended): `findBestMatch` replaces its candidate whenever a later
pattern's match starts strictly earlier **or** has a strictly longer
span; the earliest-start rule is therefore only guaranteed when all
matches share one span, in which case the selected match starts at the
least offset among all pattern matches. -/
theorem findBestMatch_equal_span_earliest (line : List Char) (sp : Nat)
    (hall : ∀ p ∈ timestampPatterns, ∀ ab ∈ regexFind p.1 line,
      ab.2 - ab.1 = sp)
    (j a b : Nat) (h : findBestMatch line = some (j, a, b)) :
    ∀ p ∈ timestampPatterns, ∀ ab ∈ regexFind p.1 line, a ≤ ab.1 :=
  (fbmAux_equal_span_min line sp timestampPatterns 0 none hall
    (by simp) j a b h).2

theorem findBestMatch_equal_span_earliest_witness :
    (∀ p ∈ timestampPatterns,
        ∀ ab ∈ regexFind p.1 ("x 2024-01-01 10:00:00".toList), ab.2 - ab.1 = 19) ∧
      findBestMatch ("x 2024-01-01 10:00:00".toList) = some (4, 2, 21) ∧
      (∀ p ∈ timestampPatterns,
        ∀ ab ∈ regexFind p.1 ("x 2024-01-01 10:00:00".toList), 2 ≤ ab.1) :=
  ⟨by decide, by decide,
    findBestMatch_equal_span_earliest ("x 2024-01-01 10:00:00".toList) 19
      (by decide) 4 2 21 (by decide)⟩

/-- C3 (counterexample): on this line the syslog pattern (index 0)
matches at offset 0 with span 15 while the offset-zone pattern (index 1)
matches at offset 18 with span 25; `findBestMatch` selects the
later-starting longer match, so the earliest-start match does not always
win when spans differ. -/
theorem findBestMatch_not_earliest_start :
    regexFind (timestampPatterns.getD 0 dfltPattern).1
        ("Oct 11 10:00:00 x 2024-01-01 10:00:00 +0000".toList) = some (0, 15) ∧
      findBestMatch ("Oct 11 10:00:00 x 2024-01-01 10:00:00 +0000".toList) =
        some (1, 18, 43) := by decide

/-!
## Claim theorems: classification
-/

/-- C4 (code evaluation at the failing input): the syslog pattern
matches the shape of this line but `"Xyz"` is no month, so
`extractTimestamp` fails with `NoTimestampError`; `parseLogLine`
nevertheless returns a `nil` error (line 102 of main.go returns the
literal `nil`), reporting the line as successfully timestamped with the
zero instant. -/
theorem parseLogLine_scan_parse_failure_is_success :
    findBestMatch ("Xyz 11 10:00:00".toList) = some (0, 0, 15) ∧
      (extractTimestamp 2026 ("Xyz 11 10:00:00".toList) (0, 15)
          (timestampPatterns.getD 0 dfltPattern).2).2.2 = some GoErr.noTimestamp ∧
      parseLogLine 2026 none ("Xyz 11 10:00:00".toList) =
        ⟨timeZero, "Xyz 11 10:00:00".toList, none, none, false⟩ := by decide

/-- C6 (amended): the cached hint is tried first.  When the hinted
pattern's regex does not match, classification falls back to the full
scan and, on a fresh successful extraction, adopts the winning index as
the new hint.  When the hinted regex matches but the substring fails to
parse, the line is classified as having no timestamp without any
fallback; on a hinted success the fast path returns with a cache hit. -/
theorem parseLogLine_hint_behaviour (cy : Int) (idx : Nat) (line : List Char) :
    (∀ pi a b t rem,
        regexFind (timestampPatterns.getD idx dfltPattern).1 line = none →
        findBestMatch line = some (pi, a, b) →
        extractTimestamp cy line (a, b)
            (timestampPatterns.getD pi dfltPattern).2 = (t, rem, none) →
        parseLogLine cy (some idx) line = ⟨t, rem, none, some pi, false⟩) ∧
    (∀ a b,
        regexFind (timestampPatterns.getD idx dfltPattern).1 line = some (a, b) →
        (extractTimestamp cy line (a, b)
            (timestampPatterns.getD idx dfltPattern).2).2.2 = some GoErr.noTimestamp →
        parseLogLine cy (some idx) line =
          ⟨timeZero, line, some GoErr.noTimestamp, some idx, false⟩) ∧
    (∀ a b t rem,
        regexFind (timestampPatterns.getD idx dfltPattern).1 line = some (a, b) →
        extractTimestamp cy line (a, b)
            (timestampPatterns.getD idx dfltPattern).2 = (t, rem, none) →
        parseLogLine cy (some idx) line = ⟨t, rem, none, some idx, true⟩) := by
  refine ⟨?_, ?_, ?_⟩
  · intro pi a b t rem hmiss hbest hext
    unfold parseLogLine
    dsimp only
    rw [hmiss, hbest]
    dsimp only
    rw [hext]
    simp
  · intro a b hhit hfail
    unfold parseLogLine
    dsimp only
    rw [hhit]
    dsimp only
    have := extractTimestamp_fail
      (by rw [hfail]; simp :
        (extractTimestamp cy line (a, b)
          (timestampPatterns.getD idx dfltPattern).2).2.2 ≠ none)
    rw [this]
    simp
  · intro a b t rem hhit hext
    unfold parseLogLine
    dsimp only
    rw [hhit]
    dsimp only
    rw [hext]
    simp

theorem parseLogLine_hint_behaviour_witness :
    parseLogLine 2026 (some 1) ("a 2024-01-01 10:00:00 b".toList) =
        ⟨⟨2024, 1, 1, 10, 0, 0, 0, 0⟩, "a  b".toList, none, some 4, false⟩ ∧
      parseLogLine 2026 (some 0) ("Xyz 11 10:00:00".toList) =
        ⟨timeZero, "Xyz 11 10:00:00".toList, some GoErr.noTimestamp,
          some 0, false⟩ :=
  have h1 := (parseLogLine_hint_behaviour 2026 1
      ("a 2024-01-01 10:00:00 b".toList)).1 4 2 21 ⟨2024, 1, 1, 10, 0, 0, 0, 0⟩
    ("a  b".toList) (by decide) (by decide) (by decide)
  have h2 := (parseLogLine_hint_behaviour 2026 0 ("Xyz 11 10:00:00".toList)).2.1
    0 15 (by decide) (by decide)
  ⟨h1, h2⟩

/-- C6 (counterexample): with cached hint 0 the syslog regex matches the
line but parsing fails; `parseLogLine` returns `NoTimestampError`
without falling back to the full scan, although the full scan (hint
absent) succeeds on the same line with pattern 4. -/
theorem hinted_parse_failure_no_fallback :
    regexFind (timestampPatterns.getD 0 dfltPattern).1
        ("Xyz 11 10:00:00 2024-01-01 10:00:00".toList) = some (0, 15) ∧
      parseLogLine 2026 (some 0) ("Xyz 11 10:00:00 2024-01-01 10:00:00".toList) =
        ⟨timeZero, "Xyz 11 10:00:00 2024-01-01 10:00:00".toList,
          some GoErr.noTimestamp, some 0, false⟩ ∧
      (parseLogLine 2026 none
          ("Xyz 11 10:00:00 2024-01-01 10:00:00".toList)).err = none ∧
      (parseLogLine 2026 none
          ("Xyz 11 10:00:00 2024-01-01 10:00:00".toList)).hint = some 4 := by
  decide

/-!
## Claim theorems: remainder round-trip and year handling
-/

/-- C8: on a successful classification the remainder is exactly the text
before the match concatenated with the text after it, and splicing the
matched substring back at the start offset reproduces the original line
character for character. -/
theorem extract_remainder_roundtrip (cy : Int) (line : List Char)
    (l0 l1 : Nat) (lay : List LTok) (t : GoTime) (rem : List Char)
    (h0 : l0 ≤ l1) (h1 : l1 ≤ line.length)
    (he : extractTimestamp cy line (l0, l1) lay = (t, rem, none)) :
    rem = line.take l0 ++ line.drop l1 ∧
      rem.take l0 ++ (line.drop l0).take (l1 - l0) ++ rem.drop l0 = line := by
  have hrem : rem = line.take l0 ++ line.drop l1 := by
    unfold extractTimestamp at he
    dsimp only at he
    cases hp : parseTime lay ((line.drop l0).take (l1 - l0)) with
    | none => rw [hp] at he; simp at he
    | some u =>
      rw [hp] at he
      dsimp only at he
      simp only [Prod.mk.injEq] at he
      exact he.2.1.symm
  have hlen0 : (line.take l0).length = l0 := by
    rw [List.length_take]
    omega
  refine ⟨hrem, ?_⟩
  subst hrem
  rw [List.take_left' hlen0, List.drop_left' hlen0]
  have hdd : line.drop l1 = (line.drop l0).drop (l1 - l0) := by
    rw [List.drop_drop]
    congr 1
    omega
  rw [hdd, List.append_assoc, List.take_append_drop, List.take_append_drop]

theorem extract_remainder_roundtrip_witness :
    "abc  def".toList =
        ("abc 2024-01-01 10:00:00 def".toList).take 4 ++
          ("abc 2024-01-01 10:00:00 def".toList).drop 23 ∧
      ("abc  def".toList).take 4 ++
          (("abc 2024-01-01 10:00:00 def".toList).drop 4).take 19 ++
          ("abc  def".toList).drop 4 =
        "abc 2024-01-01 10:00:00 def".toList :=
  extract_remainder_roundtrip 2026 ("abc 2024-01-01 10:00:00 def".toList) 4 23
    layoutDateTime ⟨2024, 1, 1, 10, 0, 0, 0, 0⟩ ("abc  def".toList)
    (by decide) (by decide) (by decide)

/-- Every time produced by `parseTime` has its month in 1..12 and its
day within the month (Go validates both). -/
theorem parseTime_valid {lay : List LTok} {v : List Char} {u : GoTime}
    (h : parseTime lay v = some u) :
    1 ≤ u.month ∧ u.month ≤ 12 ∧ 1 ≤ u.day ∧
      u.day ≤ daysInMonth u.year u.month := by
  unfold parseTime at h
  cases hp : parseChunks lay {} v with
  | none => rw [hp] at h; simp at h
  | some fv =>
    obtain ⟨f, s⟩ := fv
    rw [hp] at h
    cases s with
    | cons x xs => simp at h
    | nil =>
      dsimp only at h
      split_ifs at h with h1 h2
      · obtain rfl := Option.some.inj h
        exact ⟨h1.1, h1.2, h2.1, h2.2⟩

theorem daysInMonth_ne_two {m : Nat} (h : m ≠ 2) (y y' : Int) :
    daysInMonth y m = daysInMonth y' m := by
  simp [daysInMonth, h]

theorem normDate_id {y : Int} {m d : Nat} (h1 : 1 ≤ d)
    (h2 : d ≤ daysInMonth y m) : normDate y m d = (y, m, d) := by
  unfold normDate
  cases d with
  | zero => omega
  | succ k => simp [normDateAux, Nat.not_lt.mpr h2]

theorem normDate_feb29 {y : Int} (h : isLeapYear y = false) :
    normDate y 2 29 = (y, 3, 1) := by
  have hd : daysInMonth y 2 = 28 := by simp [daysInMonth, h]
  have h3 : daysInMonth y 3 = 31 := by simp [daysInMonth]
  show normDateAux 29 y 2 29 = (y, 3, 1)
  rw [show (29 : Nat) = 28 + 1 from rfl, normDateAux, hd,
    if_pos (by omega : (28 : Nat) < 28 + 1), if_neg (by omega : ¬(12 ≤ 2))]
  show normDateAux 28 y 3 1 = (y, 3, 1)
  rw [show (28 : Nat) = 27 + 1 from rfl, normDateAux, h3,
    if_neg (by omega : ¬(31 < 1))]

/-- C9 (amended): a successfully classified line whose layout carries no
year (parsed year 0) comes back with the current calendar year and all
clock components intact; the parsed month and day are also preserved
except for a parsed `Feb 29` when the current year is not a leap year,
which Go's date normalization turns into `Mar 1`. -/
theorem yearless_gets_current_year (cy : Int) (line : List Char)
    (l0 l1 : Nat) (lay : List LTok) (u : GoTime)
    (hu : parseTime lay ((line.drop l0).take (l1 - l0)) = some u)
    (hy : u.year = 0) :
    extractTimestamp cy line (l0, l1) lay =
      (addDateYears u cy, line.take l0 ++ line.drop l1, none) ∧
    (addDateYears u cy).year = cy ∧
    (addDateYears u cy).hour = u.hour ∧
    (addDateYears u cy).minute = u.minute ∧
    (addDateYears u cy).second = u.second ∧
    (addDateYears u cy).nsec = u.nsec ∧
    (addDateYears u cy).offset = u.offset ∧
    ((u.month = 2 ∧ u.day = 29 ∧ isLeapYear cy = false →
        (addDateYears u cy).month = 3 ∧ (addDateYears u cy).day = 1) ∧
      (¬(u.month = 2 ∧ u.day = 29 ∧ isLeapYear cy = false) →
        (addDateYears u cy).month = u.month ∧
          (addDateYears u cy).day = u.day)) := by
  obtain ⟨hm1, hm2, hd1, hd2⟩ := parseTime_valid hu
  have hext : extractTimestamp cy line (l0, l1) lay =
      (addDateYears u cy, line.take l0 ++ line.drop l1, none) := by
    unfold extractTimestamp
    dsimp only
    rw [hu]
    dsimp only
    rw [if_pos hy]
  have hyc : u.year + cy = cy := by rw [hy]; omega
  by_cases hc : u.month = 2 ∧ u.day = 29 ∧ isLeapYear cy = false
  · obtain ⟨hcm, hcd, hcl⟩ := hc
    have hr : normDate (u.year + cy) u.month u.day = (cy, 3, 1) := by
      rw [hyc, hcm, hcd, normDate_feb29 hcl]
    have ha : addDateYears u cy = { u with year := cy, month := 3, day := 1 } := by
      unfold addDateYears
      rw [hr]
    rw [ha] at hext ⊢
    refine ⟨hext, rfl, rfl, rfl, rfl, rfl, rfl, fun _ => ⟨rfl, rfl⟩,
      fun hn => absurd ⟨hcm, hcd, hcl⟩ hn⟩
  · have hdle : u.day ≤ daysInMonth cy u.month := by
      by_cases hm : u.month = 2
      · rw [hm] at hd2 ⊢
        rw [hy] at hd2
        have h29 : daysInMonth 0 2 = 29 := by decide
        rw [h29] at hd2
        cases hl : isLeapYear cy with
        | false =>
          have hne : u.day ≠ 29 := fun hd => hc ⟨hm, hd, hl⟩
          have h28 : daysInMonth cy 2 = 28 := by simp [daysInMonth, hl]
          omega
        | true =>
          have h29' : daysInMonth cy 2 = 29 := by simp [daysInMonth, hl]
          omega
      · rw [daysInMonth_ne_two hm cy u.year]
        exact hd2
    have hr : normDate (u.year + cy) u.month u.day = (cy, u.month, u.day) := by
      rw [hyc]
      exact normDate_id hd1 hdle
    have ha : addDateYears u cy = { u with year := cy } := by
      unfold addDateYears
      rw [hr]
    rw [ha] at hext ⊢
    exact ⟨hext, rfl, rfl, rfl, rfl, rfl, rfl, fun hx => absurd hx hc,
      fun _ => ⟨rfl, rfl⟩⟩

theorem yearless_gets_current_year_witness :
    (addDateYears ⟨0, 10, 11, 8, 30, 0, 0, 0⟩ 2026).year = 2026 ∧
      (addDateYears ⟨0, 10, 11, 8, 30, 0, 0, 0⟩ 2026).month = 10 ∧
      (addDateYears ⟨0, 10, 11, 8, 30, 0, 0, 0⟩ 2026).day = 11 :=
  have h := yearless_gets_current_year 2026 ("Oct 11 08:30:00".toList) 0 15
    layoutSyslog ⟨0, 10, 11, 8, 30, 0, 0, 0⟩ (by decide) rfl
  ⟨h.2.1, (h.2.2.2.2.2.2.2.2 (by decide)).1, (h.2.2.2.2.2.2.2.2 (by decide)).2⟩

/-- C9 (counterexample): `Feb 29` parses under the year-less syslog
layout (year 0 is a leap year); adding the non-leap current year 2025
yields March 1, so the month and day components are not preserved even
though the year is set to the current year. -/
theorem yearless_feb29_normalized :
    parseTime layoutSyslog ("Feb 29 10:00:00".toList) =
        some ⟨0, 2, 29, 10, 0, 0, 0, 0⟩ ∧
      extractTimestamp 2025 ("Feb 29 10:00:00".toList) (0, 15) layoutSyslog =
        (⟨2025, 3, 1, 10, 0, 0, 0, 0⟩, [], none) := by decide
